import Mathlib

/-!
Shallow embedding of the `local-ffmpeg` platform handlers
(`src/local_ffmpeg/__platform/__linux.py` and `__osx.py`).

Modelling conventions:
* Python strings are Lean `String`; `str.lower()` is `strLower` (ASCII case
  folding, which is what matters for the architecture strings involved);
  `"pat" in s` is `strContains s "pat"`; `name.split("/")` is `splitSlash`.
* `platform.machine()` is passed in as an explicit argument `machine`.
* Fallible Python functions that `raise` are embedded as `Except String α`.
* The filesystem side effects of `install`, `uninstall` and `check_installed`
  are embedded as pure functions over explicit representations of the
  relevant state (archive member lists, scratch-directory file trees,
  flat path lists, a probing environment).
-/

namespace LocalFFmpeg

/-- `pat` occurs as a contiguous sublist of `l` (substring check on chars). -/
def listContainsAt (pat : List Char) : List Char → Bool
  | [] => pat.isEmpty
  | c :: rest => pat.isPrefixOf (c :: rest) || listContainsAt pat rest

/-- Python `pat in s` (substring containment). -/
def strContains (s pat : String) : Bool := listContainsAt pat.data s.data

/-- Python `s.lower()` restricted to ASCII (`Char.toLower` folds `A`–`Z`). -/
def strLower (s : String) : String := ⟨s.data.map Char.toLower⟩

/-- Python `s.endswith(pat)`. -/
def strEndsWith (s pat : String) : Bool := pat.data.isSuffixOf s.data

/-- Helper for `splitSlash`: accumulates the current segment reversed. -/
def splitSlashAux : List Char → List Char → List String
  | [], acc => [⟨acc.reverse⟩]
  | c :: rest, acc =>
    if c = '/' then ⟨acc.reverse⟩ :: splitSlashAux rest []
    else splitSlashAux rest (c :: acc)

/-- Python `s.split("/")`. -/
def splitSlash (s : String) : List String := splitSlashAux s.data []

/-! ## URL resolution (`get_download_url`) -/

/-- `base_url` of `LinuxHandler.get_download_url` (`__linux.py` line 30). -/
def base_url : String := "https://github.com/BtbN/FFmpeg-Builds/releases/download/latest"

/-- `LinuxHandler.get_download_url` (`__linux.py` lines 19–37).
The host architecture `platform.machine()` is the argument `machine`;
the code lowercases it before comparing. -/
def LinuxHandler.get_download_url (machine : String) : Except String String :=
  let arch := strLower machine
  if arch = "x86_64" ∨ arch = "amd64" then
    .ok (base_url ++ "/ffmpeg-master-latest-linux64-gpl-shared.tar.xz")
  else if arch = "aarch64" ∨ arch = "arm64" then
    .ok (base_url ++ "/ffmpeg-master-latest-linuxarm64-gpl-shared.tar.xz")
  else
    .error ("Unsupported Linux architecture: " ++ arch)

/-- `MacOSHandler.get_download_url` (`__osx.py` lines 19–38).
Note: the macOS code does not lowercase `platform.machine()` and matches
only the exact strings `"x86_64"` and `"arm64"`. -/
def MacOSHandler.get_download_url (machine : String) : Except String String :=
  if machine = "x86_64" then
    .ok "https://github.com/ColorsWind/FFmpeg-macOS/releases/download/n5.0.1-patch3/FFmpeg_shared-n5.0.1-OSX-x86_64.zip"
  else if machine = "arm64" then
    .ok "https://github.com/ColorsWind/FFmpeg-macOS/releases/download/n5.0.1-patch3/FFmpeg-shared-n5.0.1-OSX-arm64.zip"
  else
    .error ("Unsupported macOS architecture: " ++ machine)

/-! ## Installation (`install`)

The archive is a list of members (`tar.getmembers()` / `zip_ref.infolist()`),
each a name plus a permission mode.  The scratch directory (the parent of
`download_path`) is a list of files, each holding its path below the scratch
root as segments plus a mode; `os.walk` visits exactly the directories in
which those files sit. -/

/-- An archive member: its internal path and permission bits. -/
structure Member where
  name : String
  mode : Nat
deriving DecidableEq

/-- The member filter of `install` (`__linux.py` line 59, `__osx.py` line 56):
`"bin/" in member.name or "lib/" in member.name`. -/
def Member.selected (m : Member) : Bool :=
  strContains m.name "bin/" || strContains m.name "lib/"

/-- A file in the scratch directory: path segments below the scratch root
and its permission bits. -/
structure SFile where
  path : List String
  mode : Nat
deriving DecidableEq

/-- Extracting a member places it in the scratch directory at its
internal path. -/
def Member.toFile (m : Member) : SFile := ⟨splitSlash m.name, m.mode⟩

/-- `pathlib.Path(root).relative_to(extracted_dir).name`: the basename of a
walked directory, `""` for the scratch root itself. -/
def relName (d : List String) : String := (d.getLast?).getD ""

/-- Basename of a file path. -/
def fileName (p : List String) : String := (p.getLast?).getD ""

/-- The directories visited by `os.walk(extracted_dir)`, identified by their
paths below the scratch root (each visited once). -/
def walkDirs (scratch : List SFile) : List (List String) :=
  (scratch.map (fun f => f.path.dropLast)).dedup

/-- The files directly inside walked directory `d`. -/
def filesIn (scratch : List SFile) (d : List String) : List SFile :=
  scratch.filter (fun f => decide (f.path.dropLast = d))

/-- Outcome of the move loop: the files that end up in `install_path/bin`
and `install_path/lib`, as (basename, mode) pairs. -/
structure MoveOut where
  bin : List (String × Nat)
  lib : List (String × Nat)
deriving DecidableEq

/-- One iteration of the `for root, _, files in os.walk(...)` loop
(`__linux.py` lines 69–83, `__osx.py` lines 60–74): if the directory's
basename is `bin`, its files are moved into `install_path/bin` and chmod'd
to `0o755`; if `lib`, moved into `install_path/lib` keeping their mode. -/
def moveStep (scratch : List SFile) (acc : MoveOut) (d : List String) : MoveOut :=
  if relName d = "bin" then
    { acc with bin := acc.bin ++ (filesIn scratch d).map (fun f => (fileName f.path, 0o755)) }
  else if relName d = "lib" then
    { acc with lib := acc.lib ++ (filesIn scratch d).map (fun f => (fileName f.path, f.mode)) }
  else acc

/-- The whole move loop over the walked directories. -/
def movePhase (scratch : List SFile) : MoveOut :=
  (walkDirs scratch).foldl (moveStep scratch) ⟨[], []⟩

/-- Whether the walk performs `os.makedirs(install_path/bin, exist_ok=True)`:
some walked directory has basename `bin`. -/
def hasBinDir (scratch : List SFile) : Bool :=
  (walkDirs scratch).any (fun d => decide (relName d = "bin"))

/-- Whether the walk performs `os.makedirs(install_path/lib, exist_ok=True)`. -/
def hasLibDir (scratch : List SFile) : Bool :=
  (walkDirs scratch).any (fun d => decide (relName d = "lib"))

/-- Observable outcome of one `install` call.  `installPathCreated` records
whether the call caused `install_path` to exist (assuming it did not
before); `extracted` the members actually extracted into the scratch
directory. -/
structure InstallResult where
  error : Option String
  installPathCreated : Bool
  extracted : List Member
  binDirCreated : Bool
  libDirCreated : Bool
  binFiles : List (String × Nat)
  libFiles : List (String × Nat)
  archiveRemoved : Bool
deriving DecidableEq

/-- `LinuxHandler.install` (`__linux.py` lines 39–92).  `openOk` is whether
`tarfile.open` succeeds on `download_path`; `scratchPre` the files already
present in the scratch directory before extraction.  On Linux the members
are filtered first and the install aborts (wrapped `RuntimeError`) when none
matches; `install_path` only comes to exist through the `os.makedirs` of its
`bin`/`lib` subdirectories during the move loop. -/
def LinuxHandler.install (openOk : Bool) (archive : List Member)
    (scratchPre : List SFile) : InstallResult :=
  if openOk then
    let members := archive.filter Member.selected
    if members = [] then
      { error := some "Failed to install FFmpeg: No FFmpeg binaries found in archive",
        installPathCreated := false, extracted := [], binDirCreated := false,
        libDirCreated := false, binFiles := [], libFiles := [], archiveRemoved := false }
    else
      let scratch := scratchPre ++ members.map Member.toFile
      { error := none,
        installPathCreated := hasBinDir scratch || hasLibDir scratch,
        extracted := members,
        binDirCreated := hasBinDir scratch,
        libDirCreated := hasLibDir scratch,
        binFiles := (movePhase scratch).bin,
        libFiles := (movePhase scratch).lib,
        archiveRemoved := true }
  else
    { error := some "Failed to install FFmpeg: cannot open archive",
      installPathCreated := false, extracted := [], binDirCreated := false,
      libDirCreated := false, binFiles := [], libFiles := [], archiveRemoved := false }

/-- `MacOSHandler.install` (`__osx.py` lines 40–83).  It runs
`os.makedirs(install_path, exist_ok=True)` before the `try` block, so
`installPathCreated` holds on every path, failures included; it has no
"no binaries found" guard. -/
def MacOSHandler.install (openOk : Bool) (archive : List Member)
    (scratchPre : List SFile) : InstallResult :=
  if openOk then
    let members := archive.filter Member.selected
    let scratch := scratchPre ++ members.map Member.toFile
    { error := none,
      installPathCreated := true,
      extracted := members,
      binDirCreated := hasBinDir scratch,
      libDirCreated := hasLibDir scratch,
      binFiles := (movePhase scratch).bin,
      libFiles := (movePhase scratch).lib,
      archiveRemoved := true }
  else
    { error := some "Failed to install FFmpeg: cannot open archive",
      installPathCreated := true, extracted := [], binDirCreated := false,
      libDirCreated := false, binFiles := [], libFiles := [], archiveRemoved := false }

/-! ## Verification (`check_installed`) and removal (`uninstall`)

`check_installed` only observes the host through `os.path.exists`,
`os.access(..., X_OK)` and `subprocess.run([cmd, "-version"], timeout=5)`;
an `ExecEnv` packages those three observations.  A subprocess invocation
either exits with a code, hits the 5-second timeout
(`subprocess.TimeoutExpired`, a `SubprocessError`), or fails to launch
(`OSError`); the code catches exactly `(subprocess.SubprocessError,
OSError)`, so all three outcomes are representable and handled. -/

/-- Outcome of `subprocess.run([cmd, "-version"], timeout=5)`. -/
inductive RunOutcome where
  | exited (code : Int)
  | timeout
  | oserror
deriving DecidableEq

/-- The ambient-host observations used by `check_installed`. -/
structure ExecEnv where
  pathExists : String → Bool
  canExec : String → Bool
  run : String → RunOutcome

/-- `os.path.join` for the shapes used here (second component relative). -/
def joinPath (a b : String) : String :=
  if a = "" then b
  else if strEndsWith a "/" then a ++ b
  else a ++ "/" ++ b

/-- The three probed binaries, in program order. -/
def ffbins : List String := ["ffmpeg", "ffprobe", "ffplay"]

/-- The health probe: run `cmd -version`; healthy means exit code 0.  A
non-zero exit, a timeout or a launch failure all count as unhealthy (the
code prints a diagnostic and returns `False` for each). -/
def healthOk (env : ExecEnv) (cmd : String) : Bool :=
  match env.run cmd with
  | .exited c => c == 0
  | .timeout => false
  | .oserror => false

/-- `LinuxHandler.check_installed` (`__linux.py` lines 106–142): requires
an explicit non-empty path, reports missing binaries via `os.path.exists`,
then health-probes each binary, short-circuiting on failure. -/
def LinuxHandler.check_installed (env : ExecEnv) (path : Option String) : Bool :=
  match path with
  | none => false
  | some p =>
    if p = "" then false
    else if ffbins.filter (fun b => !(env.pathExists (joinPath p b))) = [] then
      ffbins.all (fun b => healthOk env (joinPath p b))
    else false

/-- The macOS "global check": probe the three bare command names through
the ambient executable search path (`__osx.py` lines 122–132). -/
def globalHealth (env : ExecEnv) : Bool := ffbins.all (fun b => healthOk env b)

/-- `MacOSHandler.check_installed` (`__osx.py` lines 97–132): the local
branch runs only when a path is supplied, is non-empty (truthy) *and*
exists; its existence test additionally requires the executable bit.  In
every other case the global check runs. -/
def MacOSHandler.check_installed (env : ExecEnv) (path : Option String) : Bool :=
  match path with
  | some p =>
    if p ≠ "" ∧ env.pathExists p = true then
      if ffbins.filter (fun b =>
          !(env.pathExists (joinPath p b) && env.canExec (joinPath p b))) = [] then
        ffbins.all (fun b => healthOk env (joinPath p b))
      else false
    else globalHealth env
  | none => globalHealth env

/-- One `shutil.rmtree` guarded by `os.path.exists` (`__linux.py` lines
101–104, `__osx.py` lines 92–95).  The filesystem is a list of existing
paths (segment lists); an object exists iff some listed path has it as a
prefix, and removing a tree drops every path below it. -/
def rmtreeIf (fs : List (List String)) (dp : List String) : List (List String) :=
  if fs.any (fun e => dp.isPrefixOf e) then
    fs.filter (fun e => !(dp.isPrefixOf e))
  else fs

/-- `uninstall`: `for dir in ("bin", "lib"): if exists: rmtree`. -/
def uninstall (fs : List (List String)) (installPath : List String) : List (List String) :=
  ["bin", "lib"].foldl (fun acc d => rmtreeIf acc (installPath ++ [d])) fs

/-- C1 counterexample: the claim says every recognized alias (`amd64`
included, in any case) yields a URL on both handlers, but
`MacOSHandler.get_download_url` rejects `"amd64"`. -/
theorem C1_counterexample :
    MacOSHandler.get_download_url "amd64" =
      .error "Unsupported macOS architecture: amd64" := by
  rfl

/-- C1 (amended): `LinuxHandler.get_download_url` lowercases the machine
string, maps `x86_64`/`amd64` (any case) to a `linux64` URL ending in
`.tar.xz` and `aarch64`/`arm64` to a `linuxarm64` URL ending in `.tar.xz`,
and fails on anything else naming the lowercased string;
`MacOSHandler.get_download_url` recognizes exactly the case-sensitive
strings `x86_64` and `arm64`, returns a `.zip` URL containing the
architecture token, and fails on anything else naming the string. -/
theorem C1_amended_thm (m : String) :
    (strLower m = "x86_64" ∨ strLower m = "amd64" →
      ∃ u, LinuxHandler.get_download_url m = .ok u ∧
        strContains u "linux64" = true ∧ strEndsWith u ".tar.xz" = true) ∧
    (strLower m = "aarch64" ∨ strLower m = "arm64" →
      ∃ u, LinuxHandler.get_download_url m = .ok u ∧
        strContains u "linuxarm64" = true ∧ strEndsWith u ".tar.xz" = true) ∧
    (strLower m ≠ "x86_64" → strLower m ≠ "amd64" →
      strLower m ≠ "aarch64" → strLower m ≠ "arm64" →
      LinuxHandler.get_download_url m =
        .error ("Unsupported Linux architecture: " ++ strLower m)) ∧
    (m = "x86_64" →
      ∃ u, MacOSHandler.get_download_url m = .ok u ∧
        strContains u "x86_64" = true ∧ strEndsWith u ".zip" = true) ∧
    (m = "arm64" →
      ∃ u, MacOSHandler.get_download_url m = .ok u ∧
        strContains u "arm64" = true ∧ strEndsWith u ".zip" = true) ∧
    (m ≠ "x86_64" → m ≠ "arm64" →
      MacOSHandler.get_download_url m =
        .error ("Unsupported macOS architecture: " ++ m)) := by
  refine ⟨?_, ?_, ?_, ?_, ?_, ?_⟩
  · intro h
    refine ⟨base_url ++ "/ffmpeg-master-latest-linux64-gpl-shared.tar.xz",
      ?_, by decide, by decide⟩
    simp only [LinuxHandler.get_download_url]
    rw [if_pos h]
  · intro h
    refine ⟨base_url ++ "/ffmpeg-master-latest-linuxarm64-gpl-shared.tar.xz",
      ?_, by decide, by decide⟩
    have hne : ¬(strLower m = "x86_64" ∨ strLower m = "amd64") := by
      rcases h with h | h <;> simp [h]
    simp only [LinuxHandler.get_download_url]
    rw [if_neg hne, if_pos h]
  · intro h1 h2 h3 h4
    simp only [LinuxHandler.get_download_url]
    rw [if_neg (by simp [h1, h2]), if_neg (by simp [h3, h4])]
  · intro h
    exact ⟨_, by rw [MacOSHandler.get_download_url, if_pos h], by decide, by decide⟩
  · intro h
    refine ⟨"https://github.com/ColorsWind/FFmpeg-macOS/releases/download/n5.0.1-patch3/FFmpeg-shared-n5.0.1-OSX-arm64.zip",
      ?_, by decide, by decide⟩
    rw [MacOSHandler.get_download_url, if_neg (by simp [h]), if_pos h]
  · intro h1 h2
    rw [MacOSHandler.get_download_url, if_neg h1, if_neg h2]

/-- C1 witness: the amended theorem at the concrete inputs `"AMD64"`
(recognized by Linux in any case) and `"ppc64"` (rejected by macOS). -/
theorem C1_witness :
    (∃ u, LinuxHandler.get_download_url "AMD64" = .ok u ∧
      strContains u "linux64" = true ∧ strEndsWith u ".tar.xz" = true) ∧
    MacOSHandler.get_download_url "ppc64" =
      .error ("Unsupported macOS architecture: " ++ "ppc64") :=
  ⟨(C1_amended_thm "AMD64").1 (Or.inr (by decide)),
   (C1_amended_thm "ppc64").2.2.2.2.2 (by decide) (by decide)⟩

/-- For a nonempty basename `s`, `relName d = s` pins down `d.getLast?`. -/
theorem relName_eq_some (d : List String) (s : String) (hs : s ≠ "") :
    relName d = s ↔ d.getLast? = some s := by
  unfold relName
  cases h : d.getLast? with
  | none => simpa using fun h2 => hs h2.symm
  | some a => simp

/-- `moveStep` never removes an entry from the `bin` output. -/
theorem moveStep_bin_mono (scratch : List SFile) (acc : MoveOut) (d : List String)
    (x : String × Nat) (hx : x ∈ acc.bin) : x ∈ (moveStep scratch acc d).bin := by
  unfold moveStep
  split
  · exact List.mem_append_left _ hx
  · split
    · exact hx
    · exact hx

/-- `moveStep` never removes an entry from the `lib` output. -/
theorem moveStep_lib_mono (scratch : List SFile) (acc : MoveOut) (d : List String)
    (x : String × Nat) (hx : x ∈ acc.lib) : x ∈ (moveStep scratch acc d).lib := by
  unfold moveStep
  split
  · exact hx
  · split
    · exact List.mem_append_left _ hx
    · exact hx

/-- The move loop keeps everything already in the `bin` output. -/
theorem foldl_bin_mono (scratch : List SFile) :
    ∀ (dirs : List (List String)) (acc : MoveOut) (x : String × Nat),
      x ∈ acc.bin → x ∈ (dirs.foldl (moveStep scratch) acc).bin
  | [], _, _, hx => hx
  | d :: ds, acc, x, hx =>
    foldl_bin_mono scratch ds _ x (moveStep_bin_mono scratch acc d x hx)

/-- The move loop keeps everything already in the `lib` output. -/
theorem foldl_lib_mono (scratch : List SFile) :
    ∀ (dirs : List (List String)) (acc : MoveOut) (x : String × Nat),
      x ∈ acc.lib → x ∈ (dirs.foldl (moveStep scratch) acc).lib
  | [], _, _, hx => hx
  | d :: ds, acc, x, hx =>
    foldl_lib_mono scratch ds _ x (moveStep_lib_mono scratch acc d x hx)

/-- Completeness of the move loop for `bin`: every file directly inside a
visited directory whose basename is `bin` lands in the `bin` output,
chmod'd to `0o755`. -/
theorem foldl_bin_complete (scratch : List SFile) (dirs : List (List String)) :
    ∀ (acc : MoveOut) (d : List String), d ∈ dirs → relName d = "bin" →
      ∀ f ∈ filesIn scratch d,
        (fileName f.path, 0o755) ∈ (dirs.foldl (moveStep scratch) acc).bin := by
  induction dirs with
  | nil => intro acc d hd; cases hd
  | cons e es ih =>
    intro acc d hd hbin f hf
    rcases List.mem_cons.mp hd with rfl | hd2
    · rw [List.foldl_cons]
      apply foldl_bin_mono
      unfold moveStep
      rw [if_pos hbin]
      exact List.mem_append_right _ (List.mem_map.mpr ⟨f, hf, rfl⟩)
    · exact ih _ d hd2 hbin f hf

/-- Completeness of the move loop for `lib`: every file directly inside a
visited directory whose basename is `lib` lands in the `lib` output with
its mode unaltered. -/
theorem foldl_lib_complete (scratch : List SFile) (dirs : List (List String)) :
    ∀ (acc : MoveOut) (d : List String), d ∈ dirs → relName d = "lib" →
      ∀ f ∈ filesIn scratch d,
        (fileName f.path, f.mode) ∈ (dirs.foldl (moveStep scratch) acc).lib := by
  induction dirs with
  | nil => intro acc d hd; cases hd
  | cons e es ih =>
    intro acc d hd hlib f hf
    rcases List.mem_cons.mp hd with rfl | hd2
    · rw [List.foldl_cons]
      apply foldl_lib_mono
      unfold moveStep
      rw [if_neg (by rw [hlib]; decide), if_pos hlib]
      exact List.mem_append_right _ (List.mem_map.mpr ⟨f, hf, rfl⟩)
    · exact ih _ d hd2 hlib f hf

/-- Soundness of the move loop for `bin`: everything in the `bin` output was
already there or is a file of a visited `bin`-basename directory. -/
theorem foldl_bin_sound (scratch : List SFile) (dirs : List (List String)) :
    ∀ (acc : MoveOut) (x : String × Nat),
      x ∈ (dirs.foldl (moveStep scratch) acc).bin →
      x ∈ acc.bin ∨ ∃ d, d ∈ dirs ∧ relName d = "bin" ∧
        ∃ f, f ∈ filesIn scratch d ∧ x = (fileName f.path, 0o755) := by
  induction dirs with
  | nil => intro acc x hx; exact Or.inl hx
  | cons e es ih =>
    intro acc x hx
    rcases ih _ x hx with hacc | ⟨d, hd, hbin, f, hf, rfl⟩
    · by_cases hbe : relName e = "bin"
      · unfold moveStep at hacc
        rw [if_pos hbe] at hacc
        rcases List.mem_append.mp hacc with h1 | h2
        · exact Or.inl h1
        · rcases List.mem_map.mp h2 with ⟨f, hf, rfl⟩
          exact Or.inr ⟨e, List.mem_cons_self e es, hbe, f, hf, rfl⟩
      · by_cases hle : relName e = "lib"
        · unfold moveStep at hacc
          rw [if_neg hbe, if_pos hle] at hacc
          exact Or.inl hacc
        · unfold moveStep at hacc
          rw [if_neg hbe, if_neg hle] at hacc
          exact Or.inl hacc
    · exact Or.inr ⟨d, List.mem_cons_of_mem e hd, hbin, f, hf, rfl⟩

/-- Soundness of the move loop for `lib`. -/
theorem foldl_lib_sound (scratch : List SFile) (dirs : List (List String)) :
    ∀ (acc : MoveOut) (x : String × Nat),
      x ∈ (dirs.foldl (moveStep scratch) acc).lib →
      x ∈ acc.lib ∨ ∃ d, d ∈ dirs ∧ relName d = "lib" ∧
        ∃ f, f ∈ filesIn scratch d ∧ x = (fileName f.path, f.mode) := by
  induction dirs with
  | nil => intro acc x hx; exact Or.inl hx
  | cons e es ih =>
    intro acc x hx
    rcases ih _ x hx with hacc | ⟨d, hd, hlib, f, hf, rfl⟩
    · by_cases hbe : relName e = "bin"
      · unfold moveStep at hacc
        rw [if_pos hbe] at hacc
        exact Or.inl hacc
      · by_cases hle : relName e = "lib"
        · unfold moveStep at hacc
          rw [if_neg hbe, if_pos hle] at hacc
          rcases List.mem_append.mp hacc with h1 | h2
          · exact Or.inl h1
          · rcases List.mem_map.mp h2 with ⟨f, hf, rfl⟩
            exact Or.inr ⟨e, List.mem_cons_self e es, hle, f, hf, rfl⟩
        · unfold moveStep at hacc
          rw [if_neg hbe, if_neg hle] at hacc
          exact Or.inl hacc
    · exact Or.inr ⟨d, List.mem_cons_of_mem e hd, hlib, f, hf, rfl⟩

/-- A file's parent directory is among the walked directories. -/
theorem mem_walkDirs (scratch : List SFile) (f : SFile) (hf : f ∈ scratch) :
    f.path.dropLast ∈ walkDirs scratch :=
  List.mem_dedup.mpr (List.mem_map.mpr ⟨f, hf, rfl⟩)

/-- A file belongs to `filesIn` of its own parent directory. -/
theorem mem_filesIn_self (scratch : List SFile) (f : SFile) (hf : f ∈ scratch) :
    f ∈ filesIn scratch f.path.dropLast :=
  List.mem_filter.mpr ⟨hf, by simp⟩

/-- Characterization of the `bin` output of the move phase. -/
theorem movePhase_bin_mem (scratch : List SFile) (x : String × Nat) :
    x ∈ (movePhase scratch).bin ↔
      ∃ f, f ∈ scratch ∧ f.path.dropLast.getLast? = some "bin" ∧
        x = (fileName f.path, 0o755) := by
  constructor
  · intro hx
    rcases foldl_bin_sound scratch (walkDirs scratch) ⟨[], []⟩ x hx with h | ⟨d, _, hbin, f, hf, rfl⟩
    · cases h
    · have hfs := List.mem_filter.mp hf
      have hdeq : f.path.dropLast = d := of_decide_eq_true hfs.2
      refine ⟨f, hfs.1, ?_, rfl⟩
      rw [hdeq]
      exact (relName_eq_some d "bin" (by decide)).mp hbin
  · rintro ⟨f, hfs, hbin, rfl⟩
    exact foldl_bin_complete scratch (walkDirs scratch) ⟨[], []⟩ f.path.dropLast
      (mem_walkDirs scratch f hfs)
      ((relName_eq_some _ "bin" (by decide)).mpr hbin)
      f (mem_filesIn_self scratch f hfs)

/-- Characterization of the `lib` output of the move phase. -/
theorem movePhase_lib_mem (scratch : List SFile) (x : String × Nat) :
    x ∈ (movePhase scratch).lib ↔
      ∃ f, f ∈ scratch ∧ f.path.dropLast.getLast? = some "lib" ∧
        x = (fileName f.path, f.mode) := by
  constructor
  · intro hx
    rcases foldl_lib_sound scratch (walkDirs scratch) ⟨[], []⟩ x hx with h | ⟨d, _, hlib, f, hf, rfl⟩
    · cases h
    · have hfs := List.mem_filter.mp hf
      have hdeq : f.path.dropLast = d := of_decide_eq_true hfs.2
      refine ⟨f, hfs.1, ?_, rfl⟩
      rw [hdeq]
      exact (relName_eq_some d "lib" (by decide)).mp hlib
  · rintro ⟨f, hfs, hlib, rfl⟩
    exact foldl_lib_complete scratch (walkDirs scratch) ⟨[], []⟩ f.path.dropLast
      (mem_walkDirs scratch f hfs)
      ((relName_eq_some _ "lib" (by decide)).mpr hlib)
      f (mem_filesIn_self scratch f hfs)

/-- `install_path/bin` is created exactly when some scratch file sits
directly inside a directory with basename `bin`. -/
theorem hasBinDir_iff (scratch : List SFile) :
    hasBinDir scratch = true ↔
      ∃ f, f ∈ scratch ∧ f.path.dropLast.getLast? = some "bin" := by
  unfold hasBinDir
  rw [List.any_eq_true]
  constructor
  · rintro ⟨d, hd, hb⟩
    rcases List.mem_map.mp (List.mem_dedup.mp hd) with ⟨f, hf, rfl⟩
    exact ⟨f, hf, (relName_eq_some _ "bin" (by decide)).mp (of_decide_eq_true hb)⟩
  · rintro ⟨f, hf, hb⟩
    exact ⟨f.path.dropLast, mem_walkDirs scratch f hf,
      decide_eq_true ((relName_eq_some _ "bin" (by decide)).mpr hb)⟩

/-- `install_path/lib` is created exactly when some scratch file sits
directly inside a directory with basename `lib`. -/
theorem hasLibDir_iff (scratch : List SFile) :
    hasLibDir scratch = true ↔
      ∃ f, f ∈ scratch ∧ f.path.dropLast.getLast? = some "lib" := by
  unfold hasLibDir
  rw [List.any_eq_true]
  constructor
  · rintro ⟨d, hd, hb⟩
    rcases List.mem_map.mp (List.mem_dedup.mp hd) with ⟨f, hf, rfl⟩
    exact ⟨f, hf, (relName_eq_some _ "lib" (by decide)).mp (of_decide_eq_true hb)⟩
  · rintro ⟨f, hf, hb⟩
    exact ⟨f.path.dropLast, mem_walkDirs scratch f hf,
      decide_eq_true ((relName_eq_some _ "lib" (by decide)).mpr hb)⟩

/-- C5: during the move phase, a (basename, mode) pair lands in
`install_path/bin` exactly when some scratch file at any depth sits
directly inside a directory whose basename is literally `bin`, and its
mode is then `0o755`; it lands in `install_path/lib` exactly when its
parent's basename is `lib`, with mode unaltered; and the destination
directories are created exactly when such a parent directory is walked,
idempotently (`exist_ok=True`).  All matching directories feed the same
single destination list, i.e. they are flattened. -/
theorem C5_thm (scratch : List SFile) (x : String × Nat) :
    (x ∈ (movePhase scratch).bin ↔
      ∃ f, f ∈ scratch ∧ f.path.dropLast.getLast? = some "bin" ∧
        x = (fileName f.path, 0o755)) ∧
    (x ∈ (movePhase scratch).lib ↔
      ∃ f, f ∈ scratch ∧ f.path.dropLast.getLast? = some "lib" ∧
        x = (fileName f.path, f.mode)) ∧
    (hasBinDir scratch = true ↔
      ∃ f, f ∈ scratch ∧ f.path.dropLast.getLast? = some "bin") ∧
    (hasLibDir scratch = true ↔
      ∃ f, f ∈ scratch ∧ f.path.dropLast.getLast? = some "lib") :=
  ⟨movePhase_bin_mem scratch x, movePhase_lib_mem scratch x,
   hasBinDir_iff scratch, hasLibDir_iff scratch⟩

/-- `Member.selected` spelt out. -/
theorem selected_iff (x : Member) : Member.selected x = true ↔
    (strContains x.name "bin/" = true ∨ strContains x.name "lib/" = true) := by
  simp [Member.selected]

/-- C2 counterexample: on an archive with no `bin/`/`lib/` member,
`MacOSHandler.install` raises no error at all — there is no
"no FFmpeg binaries found" guard in the macOS handler. -/
theorem C2_counterexample :
    (MacOSHandler.install true [⟨"doc/readme", 0o644⟩] []).error = none ∧
    Member.selected ⟨"doc/readme", 0o644⟩ = false := by
  decide

/-- C2 (amended): on an archive none of whose members matches the bin/lib
selection, `LinuxHandler.install` fails with the wrapped "No FFmpeg
binaries found in archive" error and creates nothing under `install_path`;
`MacOSHandler.install` has no such guard: it completes without error,
creates `install_path` itself but (for a scratch directory holding no
bin/lib files) no `bin` or `lib` subdirectory. -/
theorem C2_amended_thm (archive : List Member) (pre : List SFile)
    (h : ∀ x ∈ archive, Member.selected x = false) :
    ((LinuxHandler.install true archive pre).error =
        some "Failed to install FFmpeg: No FFmpeg binaries found in archive" ∧
      (LinuxHandler.install true archive pre).binDirCreated = false ∧
      (LinuxHandler.install true archive pre).libDirCreated = false ∧
      (LinuxHandler.install true archive pre).installPathCreated = false) ∧
    ((MacOSHandler.install true archive pre).error = none ∧
      (MacOSHandler.install true archive pre).installPathCreated = true ∧
      (hasBinDir pre = false →
        (MacOSHandler.install true archive pre).binDirCreated = false) ∧
      (hasLibDir pre = false →
        (MacOSHandler.install true archive pre).libDirCreated = false)) := by
  have hnil : archive.filter Member.selected = [] := by
    apply List.filter_eq_nil_iff.mpr
    intro x hx
    simp [h x hx]
  refine ⟨?_, ?_⟩
  · simp [LinuxHandler.install, hnil]
  · simp [MacOSHandler.install, hnil]

/-- C2 witness: the amended theorem at a concrete docs-only archive. -/
theorem C2_witness :
    (LinuxHandler.install true [⟨"doc/readme", 0o644⟩] []).error =
      some "Failed to install FFmpeg: No FFmpeg binaries found in archive" ∧
    (MacOSHandler.install true [⟨"doc/readme", 0o644⟩] []).binDirCreated = false :=
  ⟨(C2_amended_thm [⟨"doc/readme", 0o644⟩] [] (by decide)).1.1,
   (C2_amended_thm [⟨"doc/readme", 0o644⟩] [] (by decide)).2.2.2.1 (by decide)⟩

/-- Formalisation of claim C6's words, for comparison with the code: the
member's path contains a `bin` or `lib` *path segment* in directory
position. -/
def hasBinLibSegment (name : String) : Bool :=
  (splitSlash name).dropLast.contains "bin" || (splitSlash name).dropLast.contains "lib"

/-- C6 counterexample: the member `sbin/tool` has no `bin` or `lib` path
segment, yet `install` extracts it — selection is a raw substring test,
`"bin/" in member.name`. -/
theorem C6_counterexample :
    hasBinLibSegment "sbin/tool" = false ∧
    (LinuxHandler.install true [⟨"sbin/tool", 0o644⟩] []).extracted =
      [⟨"sbin/tool", 0o644⟩] ∧
    (MacOSHandler.install true [⟨"sbin/tool", 0o644⟩] []).extracted =
      [⟨"sbin/tool", 0o644⟩] := by
  decide

/-- C6 (amended): during install's extraction step, a member is selected
for extraction if and only if its path contains `bin/` or `lib/` as a
*substring* (so e.g. `sbin/` and `foolib/` components also match). -/
theorem C6_amended_thm (archive : List Member) (pre : List SFile) (m : Member) :
    (m ∈ (LinuxHandler.install true archive pre).extracted ↔
      m ∈ archive ∧
        (strContains m.name "bin/" = true ∨ strContains m.name "lib/" = true)) ∧
    (m ∈ (MacOSHandler.install true archive pre).extracted ↔
      m ∈ archive ∧
        (strContains m.name "bin/" = true ∨ strContains m.name "lib/" = true)) := by
  constructor
  · by_cases hnil : archive.filter Member.selected = []
    · simp only [LinuxHandler.install, hnil]
      simp only [if_pos rfl, if_true, List.not_mem_nil, false_iff]
      rintro ⟨hm, hor⟩
      have : m ∈ archive.filter Member.selected :=
        List.mem_filter.mpr ⟨hm, (selected_iff m).mpr hor⟩
      rw [hnil] at this
      cases this
    · simp only [LinuxHandler.install, if_neg hnil, if_true]
      rw [List.mem_filter]
      exact and_congr_right fun _ => selected_iff m
  · simp only [MacOSHandler.install, if_true]
    rw [List.mem_filter]
    exact and_congr_right fun _ => selected_iff m

/-- C9: the move phase walks the whole parent directory of `download_path`,
so a pre-existing file directly inside any directory whose basename is
`bin` (resp. `lib`) is moved into `install_path` — chmod'd to `0o755` for
`bin`, mode kept for `lib` — even though it was never part of the archive.
For Linux this needs the install not to abort, i.e. a nonempty selection. -/
theorem C9_thm (archive : List Member) (pre : List SFile) (f : SFile)
    (hf : f ∈ pre) :
    (f.path.dropLast.getLast? = some "bin" →
      (archive.filter Member.selected ≠ [] →
        (fileName f.path, 0o755) ∈ (LinuxHandler.install true archive pre).binFiles) ∧
      (fileName f.path, 0o755) ∈ (MacOSHandler.install true archive pre).binFiles) ∧
    (f.path.dropLast.getLast? = some "lib" →
      (archive.filter Member.selected ≠ [] →
        (fileName f.path, f.mode) ∈ (LinuxHandler.install true archive pre).libFiles) ∧
      (fileName f.path, f.mode) ∈ (MacOSHandler.install true archive pre).libFiles) := by
  have hmem : ∀ (ms : List Member), f ∈ pre ++ ms.map Member.toFile :=
    fun ms => List.mem_append_left _ hf
  constructor
  · intro hbin
    constructor
    · intro hne
      simp only [LinuxHandler.install, if_neg hne, if_true]
      exact (movePhase_bin_mem _ _).mpr ⟨f, hmem _, hbin, rfl⟩
    · simp only [MacOSHandler.install, if_true]
      exact (movePhase_bin_mem _ _).mpr ⟨f, hmem _, hbin, rfl⟩
  · intro hlib
    constructor
    · intro hne
      simp only [LinuxHandler.install, if_neg hne, if_true]
      exact (movePhase_lib_mem _ _).mpr ⟨f, hmem _, hlib, rfl⟩
    · simp only [MacOSHandler.install, if_true]
      exact (movePhase_lib_mem _ _).mpr ⟨f, hmem _, hlib, rfl⟩

/-- C9 witness: a stale file `old/bin/stale` already in the scratch
directory is moved into `install_path/bin` with mode `0o755` by both
handlers, although the archive only carries `pkg/bin/ffmpeg`. -/
theorem C9_witness :
    ("stale", 0o755) ∈
      (LinuxHandler.install true [⟨"pkg/bin/ffmpeg", 0o644⟩]
        [⟨["old", "bin", "stale"], 0o600⟩]).binFiles ∧
    ("stale", 0o755) ∈
      (MacOSHandler.install true [⟨"pkg/bin/ffmpeg", 0o644⟩]
        [⟨["old", "bin", "stale"], 0o600⟩]).binFiles :=
  ⟨((C9_thm [⟨"pkg/bin/ffmpeg", 0o644⟩] [⟨["old", "bin", "stale"], 0o600⟩]
      ⟨["old", "bin", "stale"], 0o600⟩ (by decide)).1 (by decide)).1 (by decide),
   ((C9_thm [⟨"pkg/bin/ffmpeg", 0o644⟩] [⟨["old", "bin", "stale"], 0o600⟩]
      ⟨["old", "bin", "stale"], 0o600⟩ (by decide)).1 (by decide)).2⟩

/-- C10: `MacOSHandler.install` creates `install_path` (with
`exist_ok=True`) before opening the archive, so it exists afterwards even
when install fails; `LinuxHandler.install` does no up-front creation —
`install_path` can only come to exist through the `os.makedirs` of a
`bin`/`lib` destination during a successful move phase. -/
theorem C10_thm (openOk : Bool) (archive : List Member) (pre : List SFile) :
    (MacOSHandler.install openOk archive pre).installPathCreated = true ∧
    ((LinuxHandler.install openOk archive pre).installPathCreated = true →
      (LinuxHandler.install openOk archive pre).error = none ∧
      ((LinuxHandler.install openOk archive pre).binDirCreated = true ∨
       (LinuxHandler.install openOk archive pre).libDirCreated = true)) := by
  constructor
  · cases openOk <;> simp [MacOSHandler.install]
  · cases openOk with
    | false => simp [LinuxHandler.install]
    | true =>
      by_cases hnil : archive.filter Member.selected = []
      · simp [LinuxHandler.install, hnil]
      · intro hip
        constructor
        · simp [LinuxHandler.install, hnil]
        · have h2 : (LinuxHandler.install true archive pre).installPathCreated =
              ((LinuxHandler.install true archive pre).binDirCreated ||
               (LinuxHandler.install true archive pre).libDirCreated) := by
            simp [LinuxHandler.install, hnil]
          rw [h2, Bool.or_eq_true] at hip
          exact hip

/-- C10 witness: with an unopenable archive macOS still leaves
`install_path` existing; a successful Linux install that did create
`install_path` did so via a `bin` or `lib` destination directory. -/
theorem C10_witness :
    (MacOSHandler.install false [] []).installPathCreated = true ∧
    ((LinuxHandler.install true [⟨"pkg/bin/ffmpeg", 0o644⟩] []).error = none ∧
      ((LinuxHandler.install true [⟨"pkg/bin/ffmpeg", 0o644⟩] []).binDirCreated = true ∨
       (LinuxHandler.install true [⟨"pkg/bin/ffmpeg", 0o644⟩] []).libDirCreated = true)) :=
  ⟨(C10_thm false [] []).1,
   (C10_thm true [⟨"pkg/bin/ffmpeg", 0o644⟩] []).2 (by decide)⟩

/-- The health probe succeeds exactly on exit code 0; a non-zero exit, a
timeout and a launch failure are all unhealthy. -/
theorem healthOk_iff (env : ExecEnv) (cmd : String) :
    healthOk env cmd = true ↔ env.run cmd = .exited 0 := by
  unfold healthOk
  cases h : env.run cmd <;> simp

/-- Characterization of `LinuxHandler.check_installed`: it returns `true`
exactly when a non-empty path was supplied, all three binaries exist
there, and all three exit with code 0. -/
theorem linux_check_true_iff (env : ExecEnv) (path : Option String) :
    LinuxHandler.check_installed env path = true ↔
      ∃ p, path = some p ∧ p ≠ "" ∧
        ∀ b ∈ ffbins, env.pathExists (joinPath p b) = true ∧
          env.run (joinPath p b) = .exited 0 := by
  cases path with
  | none => simp [LinuxHandler.check_installed]
  | some p =>
    by_cases hp : p = ""
    · subst hp
      simp [LinuxHandler.check_installed]
    · simp only [LinuxHandler.check_installed, if_neg hp]
      by_cases hm : ffbins.filter (fun b => !(env.pathExists (joinPath p b))) = []
      · rw [if_pos hm]
        constructor
        · intro hall
          refine ⟨p, rfl, hp, fun b hb => ⟨?_, ?_⟩⟩
          · have := List.filter_eq_nil_iff.mp hm b hb
            simpa using this
          · exact (healthOk_iff env _).mp (List.all_eq_true.mp hall b hb)
        · rintro ⟨q, hq, _, hall⟩
          injection hq with hq
          subst hq
          exact List.all_eq_true.mpr fun b hb =>
            (healthOk_iff env _).mpr (hall b hb).2
      · rw [if_neg hm]
        refine ⟨fun h => absurd h (by decide), fun hr => ?_⟩
        obtain ⟨q, hq, _, hall⟩ := hr
        injection hq with hq
        subst hq
        refine absurd (List.filter_eq_nil_iff.mpr fun b hb => ?_) hm
        simp [(hall b hb).1]

/-- Characterization of the macOS local branch (non-empty path that
exists): `true` exactly when all three binaries exist with the executable
bit and all three exit with code 0. -/
theorem macos_check_local_iff (env : ExecEnv) (p : String)
    (hp : p ≠ "") (hex : env.pathExists p = true) :
    MacOSHandler.check_installed env (some p) = true ↔
      ∀ b ∈ ffbins, env.pathExists (joinPath p b) = true ∧
        env.canExec (joinPath p b) = true ∧ env.run (joinPath p b) = .exited 0 := by
  simp only [MacOSHandler.check_installed, if_pos (And.intro hp hex)]
  by_cases hm : ffbins.filter (fun b =>
      !(env.pathExists (joinPath p b) && env.canExec (joinPath p b))) = []
  · rw [if_pos hm]
    constructor
    · intro hall b hb
      have h1 := List.filter_eq_nil_iff.mp hm b hb
      have h2 : (env.pathExists (joinPath p b) && env.canExec (joinPath p b)) = true := by
        simpa using h1
      have h3 := Bool.and_eq_true _ _ ▸ h2
      exact ⟨h3.1, h3.2, (healthOk_iff env _).mp (List.all_eq_true.mp hall b hb)⟩
    · intro hall
      exact List.all_eq_true.mpr fun b hb =>
        (healthOk_iff env _).mpr (hall b hb).2.2
  · rw [if_neg hm]
    refine ⟨fun h => absurd h (by decide), fun hall => ?_⟩
    refine absurd (List.filter_eq_nil_iff.mpr fun b hb => ?_) hm
    simp [(hall b hb).1, (hall b hb).2.1]

/-- When the supplied path is empty or does not exist, the macOS handler
falls back to the global probe. -/
theorem macos_check_fallback (env : ExecEnv) (p : String)
    (h : ¬(p ≠ "" ∧ env.pathExists p = true)) :
    MacOSHandler.check_installed env (some p) = globalHealth env := by
  simp only [MacOSHandler.check_installed, if_neg h]

/-- With no path at all, the macOS handler runs the global probe. -/
theorem macos_check_none (env : ExecEnv) :
    MacOSHandler.check_installed env none = globalHealth env := rfl

/-- The global probe succeeds exactly when all three bare commands exit 0. -/
theorem globalHealth_iff (env : ExecEnv) :
    globalHealth env = true ↔ ∀ b ∈ ffbins, env.run b = .exited 0 := by
  unfold globalHealth
  rw [List.all_eq_true]
  exact ⟨fun h b hb => (healthOk_iff env b).mp (h b hb),
         fun h b hb => (healthOk_iff env b).mpr (h b hb)⟩

/-- C3 counterexample: the claim quantifies over *every* explicitly
supplied installation path, but `MacOSHandler.check_installed` on a
non-empty path that does not exist returns `true` whenever the three bare
commands on the search path exit 0 — although all three binaries are
absent at the supplied path. -/
theorem C3_counterexample :
    MacOSHandler.check_installed
      ⟨fun _ => false, fun _ => false, fun _ => RunOutcome.exited 0⟩
      (some "/opt/ffmpeg") = true ∧
    (⟨fun _ => false, fun _ => false, fun _ => RunOutcome.exited 0⟩ :
      ExecEnv).pathExists (joinPath "/opt/ffmpeg" "ffmpeg") = false := by
  decide

/-- C3 (amended): for a supplied non-empty path, `LinuxHandler.check_installed`
returns false when any of the three binaries is absent, false when any
probe does not exit 0 (non-zero code, timeout or launch failure), and true
exactly when all three exist and exit 0.  `MacOSHandler.check_installed`
satisfies the same only when the path also exists on the filesystem, with
absence meaning missing file or missing executable bit; when the supplied
path does not exist it instead performs the global probe of bare command
names. -/
theorem C3_amended_thm (env : ExecEnv) (p : String) (hp : p ≠ "") :
    ((∃ b ∈ ffbins, env.pathExists (joinPath p b) = false) →
      LinuxHandler.check_installed env (some p) = false) ∧
    ((∃ b ∈ ffbins, env.run (joinPath p b) ≠ .exited 0) →
      LinuxHandler.check_installed env (some p) = false) ∧
    (LinuxHandler.check_installed env (some p) = true ↔
      ∀ b ∈ ffbins, env.pathExists (joinPath p b) = true ∧
        env.run (joinPath p b) = .exited 0) ∧
    (env.pathExists p = true →
      ((∃ b ∈ ffbins,
          (env.pathExists (joinPath p b) && env.canExec (joinPath p b)) = false) →
        MacOSHandler.check_installed env (some p) = false) ∧
      ((∃ b ∈ ffbins, env.run (joinPath p b) ≠ .exited 0) →
        MacOSHandler.check_installed env (some p) = false) ∧
      (MacOSHandler.check_installed env (some p) = true ↔
        ∀ b ∈ ffbins, env.pathExists (joinPath p b) = true ∧
          env.canExec (joinPath p b) = true ∧ env.run (joinPath p b) = .exited 0)) ∧
    (env.pathExists p = false →
      MacOSHandler.check_installed env (some p) = globalHealth env) := by
  have hlin : LinuxHandler.check_installed env (some p) = true ↔
      ∀ b ∈ ffbins, env.pathExists (joinPath p b) = true ∧
        env.run (joinPath p b) = .exited 0 := by
    rw [linux_check_true_iff]
    constructor
    · rintro ⟨q, hq, _, hall⟩
      injection hq with hq
      subst hq
      exact hall
    · intro hall
      exact ⟨p, rfl, hp, hall⟩
  refine ⟨?_, ?_, hlin, ?_, ?_⟩
  · rintro ⟨b, hb, hmiss⟩
    cases h : LinuxHandler.check_installed env (some p) with
    | false => rfl
    | true => rw [(hlin.mp h b hb).1] at hmiss; cases hmiss
  · rintro ⟨b, hb, hbad⟩
    cases h : LinuxHandler.check_installed env (some p) with
    | false => rfl
    | true => exact absurd (hlin.mp h b hb).2 hbad
  · intro hex
    have hmac := macos_check_local_iff env p hp hex
    refine ⟨?_, ?_, hmac⟩
    · rintro ⟨b, hb, hmiss⟩
      cases h : MacOSHandler.check_installed env (some p) with
      | false => rfl
      | true =>
        have := hmac.mp h b hb
        rw [this.1, this.2.1] at hmiss
        cases hmiss
    · rintro ⟨b, hb, hbad⟩
      cases h : MacOSHandler.check_installed env (some p) with
      | false => rfl
      | true => exact absurd (hmac.mp h b hb).2.2 hbad
  · intro hnex
    exact macos_check_fallback env p (by simp [hnex])

/-- C3 witness: the amended theorem at a concrete environment where nothing
exists — Linux reports `false`, macOS falls back to the global probe. -/
theorem C3_witness :
    LinuxHandler.check_installed
      ⟨fun _ => false, fun _ => false, fun _ => RunOutcome.exited 0⟩
      (some "/opt/ffmpeg") = false ∧
    MacOSHandler.check_installed
      ⟨fun _ => false, fun _ => false, fun _ => RunOutcome.exited 0⟩
      (some "/opt/ffmpeg") =
      globalHealth ⟨fun _ => false, fun _ => false, fun _ => RunOutcome.exited 0⟩ :=
  ⟨(C3_amended_thm ⟨fun _ => false, fun _ => false, fun _ => RunOutcome.exited 0⟩
      "/opt/ffmpeg" (by decide)).1 ⟨"ffmpeg", by decide, by decide⟩,
   (C3_amended_thm ⟨fun _ => false, fun _ => false, fun _ => RunOutcome.exited 0⟩
      "/opt/ffmpeg" (by decide)).2.2.2.2 (by decide)⟩

/-- C4: `MacOSHandler.check_installed` on a supplied non-empty path that
does not exist performs the global probe of the bare command names rather
than returning false for that path, and returns true whenever all three
bare commands exit 0. -/
theorem C4_thm (env : ExecEnv) (p : String) (_hp : p ≠ "")
    (hnex : env.pathExists p = false) :
    MacOSHandler.check_installed env (some p) = globalHealth env ∧
    ((∀ b ∈ ffbins, env.run b = .exited 0) →
      MacOSHandler.check_installed env (some p) = true) := by
  have hfb := macos_check_fallback env p (by simp [hnex])
  exact ⟨hfb, fun hall => by rw [hfb]; exact (globalHealth_iff env).mpr hall⟩

/-- C4 witness: with nothing at `/opt/ffmpeg` but healthy bare commands,
the macOS check returns `true`. -/
theorem C4_witness :
    MacOSHandler.check_installed
      ⟨fun _ => false, fun _ => true, fun _ => RunOutcome.exited 0⟩
      (some "/opt/ffmpeg") = true :=
  (C4_thm ⟨fun _ => false, fun _ => true, fun _ => RunOutcome.exited 0⟩
    "/opt/ffmpeg" (by decide) (by decide)).2 (by decide)

/-- C7: `check_installed` is a total boolean function of the modelled
observations (so the embedding never raises: the code catches exactly the
`SubprocessError`/`OSError` outcomes that `RunOutcome` enumerates), and it
returns `true` only in the fully successful configurations below — hence a
missing file, a missing executable bit, a non-zero exit, a timeout and a
launch failure each normalize to `false`. -/
theorem C7_thm (env : ExecEnv) (path : Option String) :
    (LinuxHandler.check_installed env path = true ↔
      ∃ p, path = some p ∧ p ≠ "" ∧
        ∀ b ∈ ffbins, env.pathExists (joinPath p b) = true ∧
          env.run (joinPath p b) = .exited 0) ∧
    (MacOSHandler.check_installed env path = true ↔
      ((∃ p, path = some p ∧ p ≠ "" ∧ env.pathExists p = true ∧
          ∀ b ∈ ffbins, env.pathExists (joinPath p b) = true ∧
            env.canExec (joinPath p b) = true ∧
            env.run (joinPath p b) = .exited 0) ∨
       ((path = none ∨ ∃ p, path = some p ∧
            (p = "" ∨ env.pathExists p = false)) ∧
         ∀ b ∈ ffbins, env.run b = .exited 0))) := by
  refine ⟨linux_check_true_iff env path, ?_⟩
  cases path with
  | none =>
    rw [macos_check_none, globalHealth_iff]
    constructor
    · intro h
      exact Or.inr ⟨Or.inl rfl, h⟩
    · rintro (⟨p, hp, _⟩ | ⟨_, h⟩)
      · cases hp
      · exact h
  | some p =>
    by_cases hcond : p ≠ "" ∧ env.pathExists p = true
    · rw [macos_check_local_iff env p hcond.1 hcond.2]
      constructor
      · intro h
        exact Or.inl ⟨p, rfl, hcond.1, hcond.2, h⟩
      · rintro (⟨q, hq, _, _, hall⟩ | ⟨hbad, _⟩)
        · injection hq with hq
          subst hq
          exact hall
        · rcases hbad with hnone | ⟨q, hq, hq2⟩
          · cases hnone
          · injection hq with hqe
            subst hqe
            rcases hq2 with h1 | h2
            · exact absurd h1 hcond.1
            · rw [hcond.2] at h2; cases h2
    · rw [macos_check_fallback env p hcond, globalHealth_iff]
      constructor
      · intro h
        refine Or.inr ⟨Or.inr ⟨p, rfl, ?_⟩, h⟩
        by_cases hp : p = ""
        · exact Or.inl hp
        · refine Or.inr ?_
          cases hex : env.pathExists p with
          | false => rfl
          | true => exact absurd ⟨hp, hex⟩ hcond
      · rintro (⟨q, hq, hq1, hq2, _⟩ | ⟨_, h⟩)
        · injection hq with hq
          subst hq
          exact absurd ⟨hq1, hq2⟩ hcond
        · exact h

/-- `rmtreeIf` only ever drops entries. -/
theorem rmtreeIf_sub (fs : List (List String)) (dp : List String) :
    ∀ e ∈ rmtreeIf fs dp, e ∈ fs := by
  intro e he
  unfold rmtreeIf at he
  split at he
  · exact (List.mem_filter.mp he).1
  · exact he

/-- After `rmtreeIf fs dp`, no entry below `dp` remains. -/
theorem rmtreeIf_no_prefix (fs : List (List String)) (dp : List String) :
    ∀ e ∈ rmtreeIf fs dp, dp.isPrefixOf e = false := by
  intro e he
  unfold rmtreeIf at he
  split at he
  · have := (List.mem_filter.mp he).2
    simpa using this
  · rename_i hany
    have hfalse : (fs.any fun x => dp.isPrefixOf x) = false := by
      simpa using hany
    have hall : ∀ x ∈ fs, dp.isPrefixOf x = false := by
      intro x hx
      cases hres : dp.isPrefixOf x with
      | false => rfl
      | true =>
        exfalso
        have hx2 : (fs.any fun y => dp.isPrefixOf y) = true :=
          List.any_eq_true.mpr ⟨x, hx, hres⟩
        rw [hfalse] at hx2
        cases hx2
    exact hall e he

/-- `rmtreeIf` keeps every entry not below `dp`. -/
theorem rmtreeIf_keep (fs : List (List String)) (dp : List String) :
    ∀ e ∈ fs, dp.isPrefixOf e = false → e ∈ rmtreeIf fs dp := by
  intro e he hnp
  unfold rmtreeIf
  split
  · exact List.mem_filter.mpr ⟨he, by simp [hnp]⟩
  · exact he

/-- When nothing lies below `dp`, the guarded `rmtree` is skipped and the
filesystem value is literally unchanged. -/
theorem rmtreeIf_id (fs : List (List String)) (dp : List String)
    (h : ∀ e ∈ fs, dp.isPrefixOf e = false) : rmtreeIf fs dp = fs := by
  have hfalse : (fs.any fun e => dp.isPrefixOf e) = false := by
    simp only [List.any_eq_false]
    intro e he
    simp [h e he]
  unfold rmtreeIf
  rw [hfalse]
  simp

/-- C8: `uninstall` removes exactly the entries below `install_path/bin`
and `install_path/lib`: every other entry survives unchanged, nothing new
appears, no entry below either subdirectory survives, and when neither
subdirectory has any entry the filesystem value is literally unchanged. -/
theorem C8_thm (fs : List (List String)) (ip : List String) :
    (∀ e ∈ fs, (ip ++ ["bin"]).isPrefixOf e = false →
      (ip ++ ["lib"]).isPrefixOf e = false → e ∈ uninstall fs ip) ∧
    (∀ e ∈ uninstall fs ip, e ∈ fs) ∧
    (∀ e ∈ uninstall fs ip, (ip ++ ["bin"]).isPrefixOf e = false ∧
      (ip ++ ["lib"]).isPrefixOf e = false) ∧
    ((∀ e ∈ fs, (ip ++ ["bin"]).isPrefixOf e = false ∧
        (ip ++ ["lib"]).isPrefixOf e = false) → uninstall fs ip = fs) := by
  have hun : uninstall fs ip =
      rmtreeIf (rmtreeIf fs (ip ++ ["bin"])) (ip ++ ["lib"]) := rfl
  refine ⟨?_, ?_, ?_, ?_⟩
  · intro e he h1 h2
    rw [hun]
    exact rmtreeIf_keep _ _ e (rmtreeIf_keep _ _ e he h1) h2
  · intro e he
    rw [hun] at he
    exact rmtreeIf_sub _ _ e (rmtreeIf_sub _ _ e he)
  · intro e he
    rw [hun] at he
    refine ⟨?_, rmtreeIf_no_prefix _ _ e he⟩
    exact rmtreeIf_no_prefix _ _ e (rmtreeIf_sub _ _ e he)
  · intro h
    rw [hun, rmtreeIf_id fs (ip ++ ["bin"]) fun e he => (h e he).1,
      rmtreeIf_id fs (ip ++ ["lib"]) fun e he => (h e he).2]

/-- C8 witness: on an install dir with only `doc` content, `uninstall` is a
no-op, and an unrelated entry survives an uninstall that does remove
`bin`. -/
theorem C8_witness :
    uninstall [["opt", "doc", "readme"]] ["opt"] = [["opt", "doc", "readme"]] ∧
    ["opt", "doc", "readme"] ∈
      uninstall [["opt", "doc", "readme"], ["opt", "bin", "ffmpeg"]] ["opt"] :=
  ⟨(C8_thm [["opt", "doc", "readme"]] ["opt"]).2.2.2 (by decide),
   (C8_thm [["opt", "doc", "readme"], ["opt", "bin", "ffmpeg"]] ["opt"]).1
     ["opt", "doc", "readme"] (by decide) (by decide) (by decide)⟩

end LocalFFmpeg
